import Mathlib

/-!
# Verification development for the building rebalancing tool

Shallow embedding of `src/automate/src/main.rs`: the level-redistribution
engine, the building split transformer, and the states-mode line rewrite.

Modelling conventions:
* Rust `u16` quantities are modelled as `Nat`; the per-owner delta vector is
  modelled as `List ℤ`, so that the `u16` subtraction `modded_per_owner[j] -= 1`
  is true integer subtraction.  A negative model value corresponds exactly to a
  `u16` underflow in the source (a panic under debug assertions, wrap-around in
  release builds).
* The source computes `modded_building_levels` and the raw per-owner
  allocations on `f32`.  Here that arithmetic is modelled exactly over `ℚ`,
  with `f32::round`'s round-half-away-from-zero semantics (`roundAway`).
* `Vec::sort_unstable_by_key` followed by `Vec::reverse` (main.rs:172-175) is
  modelled as a stable ascending insertion sort followed by `List.reverse`;
  for the short slices arising here Rust's unstable sort is insertion sort,
  which is stable, so ties end up in reversed input order after the reversal.
-/

/-- `f32::round` semantics (round half away from zero), applied to the exactly
represented value of the expression being rounded. -/
def roundAway (q : ℚ) : ℤ := if 0 ≤ q then ⌊q + 1/2⌋ else -⌊-q + 1/2⌋

/-- The hand-curated conversion table `building_ratios` (main.rs:90-101):
source building type ↦ (ratio, target building type). -/
def buildingTable : List (String × Nat × String) :=
  [ ("building_textile_mill", (4, "building_tailoring_workshop")),
    ("building_furniture_manufactory", (4, "building_luxury_furniture_manufactory")),
    ("building_glassworks", (4, "building_pottery_mill")),
    ("building_rye_farm", (6, "building_fruit_orchard")),
    ("building_wheat_farm", (6, "building_fruit_orchard")),
    ("building_rice_farm", (6, "building_fruit_orchard")),
    ("building_millet_farm", (6, "building_fruit_orchard")),
    ("building_maize_farm", (6, "building_fruit_orchard")),
    ("building_livestock_ranch", (2, "building_wool_farm")),
    ("building_food_industry", (4, "building_distillery")) ]

/-- Table lookup (`building_ratios.get`, main.rs:129/158). -/
def ratioOf (ty : String) : Option (Nat × String) :=
  (buildingTable.find? (fun r => r.1 == ty)).map Prod.snd

/-- One owner entry extracted from `add_ownership` (main.rs:137-153).
`subType = some ty` for a sub-building owner (hashmap with a "type" key);
`subType = none` for a country owner.  `levels` is the parsed `u16`. -/
structure Owner where
  subType : Option String
  country : String
  levels : Nat
  region : String
deriving DecidableEq, Repr

/-- `total_building_levels` (main.rs:154-157): sum of the parsed levels. -/
def totalLevels (owners : List Owner) : Nat :=
  (owners.map Owner.levels).sum

/-- The ascending sort key comparison used at main.rs:172-174. -/
def ownerLe (a b : Owner) : Prop := a.levels ≤ b.levels

instance : DecidableRel ownerLe := fun a b => Nat.decLe a.levels b.levels

instance : IsTotal Owner ownerLe := ⟨fun a b => Nat.le_total a.levels b.levels⟩

instance : IsTrans Owner ownerLe := ⟨fun _ _ _ h h' => Nat.le_trans h h'⟩

/-- `sort_unstable_by_key(levels)` then `reverse()` (main.rs:172-175), see the
module comment for the stability convention. -/
def sortOwners (owners : List Owner) : List Owner :=
  (List.insertionSort ownerLe owners).reverse

/-- `(total_building_levels as f32 / ratio as f32 - 0.1).round() as u16`
(main.rs:160-161).  The `as u16` cast of a rounded f32 saturates at 0 for
negative values, which `Int.toNat` reproduces. -/
def moddedLevelsTotal (T ratio : Nat) : Nat :=
  (roundAway ((T : ℚ) / (ratio : ℚ) - 1/10)).toNat

/-- One raw proportional allocation
`(modded_building_levels as f32 * (levels as f32 / total as f32)).round() as u16`
(main.rs:176-186). -/
def rawAlloc (M T lv : Nat) : Nat :=
  (roundAway ((M : ℚ) * ((lv : ℚ) / (T : ℚ)))).toNat

/-- The decrement loop body (main.rs:190-195), with an explicit fuel count:
each iteration subtracts one from `deltas[n - 1 - i]` and advances
`i := (i + 1) % n`.  The loop invariant `i < n` holds throughout (initial `i`
is `0` and the update reduces mod `n`). -/
def decFix (deltas : List ℤ) (i : Nat) : Nat → List ℤ × Nat
  | 0 => (deltas, i)
  | k + 1 =>
    let n := deltas.length
    decFix (deltas.set (n - 1 - i) (deltas.getD (n - 1 - i) 0 - 1)) ((i + 1) % n) k

/-- The increment loop body (main.rs:196-201): each iteration adds one to
`deltas[i]` and advances `i := (i + 1) % n`. -/
def incFix (deltas : List ℤ) (i : Nat) : Nat → List ℤ × Nat
  | 0 => (deltas, i)
  | k + 1 =>
    let n := deltas.length
    incFix (deltas.set i (deltas.getD i 0 + 1)) ((i + 1) % n) k

/-- The remainder fix-up (main.rs:188-201).  The source runs two `while`
loops on a running `modded_sum`; each decrement-loop iteration lowers the sum
by one and each increment-loop iteration raises it by one, so when the initial
sum exceeds the target exactly `sum - M` decrement iterations run and the
increment loop does not start, and when the sum is below the target the
decrement loop never starts (leaving `i = 0`) and exactly `M - sum` increment
iterations run. -/
def fixup (raw : List ℤ) (M : ℤ) : List ℤ :=
  let s := raw.sum
  if M ≤ s then (decFix raw 0 (s - M).toNat).1
  else (incFix raw 0 (M - s).toNat).1

/-- The conservation check at main.rs:202-204: after the fix-up the source
bails out with the given message when the running sum differs from
`modded_building_levels`.  The running sum equals the list sum of the deltas
(both start at the raw-allocation sum and are updated in lockstep). -/
def fixupChecked (raw : List ℤ) (M : ℤ) : Except String (List ℤ) :=
  let d := fixup raw M
  if d.sum ≠ M then Except.error "Incorrect number of modded building levels, fix the code"
  else Except.ok d

/-- The full redistribution engine for one building occurrence: total levels,
modded total, descending sort, raw allocations, remainder fix-up
(main.rs:154-201).  Result is aligned with `sortOwners owners`. -/
def planDeltas (owners : List Owner) (ratio : Nat) : List ℤ :=
  let T := totalLevels owners
  let M := moddedLevelsTotal T ratio
  fixup ((sortOwners owners).map (fun o => (rawAlloc M T o.levels : ℤ))) (M : ℤ)

/-- One owner entry as emitted into an output `add_ownership` block.
`otype` is the printed `type = "…"` line (sub-building owners only), `lv` the
printed `levels = …` value (an integer: a negative value corresponds to the
`u16` underflow of the source's subtraction). -/
structure OwnerOut where
  otype : Option String
  country : String
  lv : ℤ
  region : Option String
deriving DecidableEq, Repr

/-- Owner entry of the reduced-original block (main.rs:214-255): the declared
type is printed unchanged and the levels are `original - delta`. -/
def reducedEntry (o : Owner) (d : ℤ) : OwnerOut :=
  match o.subType with
  | some ty => ⟨some ty, o.country, (o.levels : ℤ) - d, some o.region⟩
  | none => ⟨none, o.country, (o.levels : ℤ) - d, none⟩

/-- Owner entry of the target-building block (main.rs:268-302): a sub-building
owner whose declared type equals the split building's own type has it printed
as the target type, and the levels are the per-owner delta. -/
def moddedEntry (btype target : String) (o : Owner) (d : ℤ) : OwnerOut :=
  match o.subType with
  | some ty => ⟨some (if ty = btype then target else ty), o.country, d, some o.region⟩
  | none => ⟨none, o.country, d, none⟩

/-- The reduced-original `add_ownership` block: every sorted owner is emitted
(main.rs:214, plain `enumerate`, no early exit). -/
def reducedOwners (sorted : List Owner) (deltas : List ℤ) : List OwnerOut :=
  (sorted.zip deltas).map (fun p => reducedEntry p.1 p.2)

/-- The target-building `add_ownership` block: the emission loop `break`s at
the first owner whose delta is zero (main.rs:263-266), keeping only the
longest prefix of nonzero deltas. -/
def moddedOwners (btype target : String) (sorted : List Owner) (deltas : List ℤ) : List OwnerOut :=
  ((sorted.zip deltas).takeWhile (fun p => p.2 != 0)).map (fun p => moddedEntry btype target p.1 p.2)

/-- One parsed `create_building` block: its `building` type, the owners read
from `add_ownership` (sub-building entries first, then country entries, the
`chain` order of main.rs:137-153), and the `reserves` scalar. -/
structure Building where
  btype : String
  owners : List Owner
  reserves : String
deriving DecidableEq, Repr

/-- A create-building block as written to the output file.  The
reduced-original block carries no `reserves` line; the target block copies the
original's `reserves` (main.rs:305-309). -/
structure CreateBlock where
  building : String
  owners : List OwnerOut
  reserves : Option String
deriving DecidableEq, Repr

/-- One output line group inside a region's building list. -/
inductive BLine
  | remove (ty : String)
  | create (blk : CreateBlock)
deriving DecidableEq, Repr

/-- The building split transformer (main.rs:126-310) for one
`create_building` occurrence: skip if the type is not in the table or the
modded total is zero, otherwise emit the removal directive, the
reduced-original block and the target block, in that order. -/
def transformBuilding (b : Building) : List BLine :=
  match ratioOf b.btype with
  | none => []
  | some (ratio, target) =>
    let T := totalLevels b.owners
    let M := moddedLevelsTotal T ratio
    if M = 0 then []
    else
      let sorted := sortOwners b.owners
      let deltas := fixup (sorted.map (fun o => (rawAlloc M T o.levels : ℤ))) (M : ℤ)
      [ BLine.remove b.btype,
        BLine.create ⟨b.btype, reducedOwners sorted deltas, none⟩,
        BLine.create ⟨target, moddedOwners b.btype target sorted deltas, some b.reserves⟩ ]

/-- One entry of a region/sub-state block as iterated at main.rs:117-124:
either a `create_building` block or any other `(token, value)` pair. -/
inductive RegionEntry
  | createBuilding (b : Building)
  | other (token : String)
deriving Repr

/-- Output produced for one region's entry list (main.rs:117-311): entries
whose token is not `create_building` are skipped outright, and each
`create_building` entry contributes exactly the transformer's lines — nothing
else is copied to the output. -/
def transformRegion (entries : List RegionEntry) : List BLine :=
  (entries.map (fun e =>
    match e with
    | RegionEntry.createBuilding b => transformBuilding b
    | RegionEntry.other _ => [])).flatten

/-! ## States mode (`create_modded_states_file_replace`, main.rs:393-438) -/

/-- The closing-brace character, written by code point to keep brace
characters out of the literals. -/
def rbraceChar : Char := Char.ofNat 125

/-- The byte-order-mark character `BOM_CHAR` (main.rs:35). -/
def bomChar : Char := Char.ofNat 65279

/-- `FARM_TYPES` (main.rs:394-400). -/
def farmTypes : List String :=
  [ "building_rice_farm", "building_wheat_farm", "building_maize_farm",
    "building_millet_farm", "building_rye_farm" ]

/-- Prefix test on character lists (`str::starts_with`). -/
def leadsWith : List Char → List Char → Bool
  | [], _ => true
  | _ :: _, [] => false
  | p :: ps, c :: cs => p == c && leadsWith ps cs

/-- Substring containment on character lists (`str::contains`). -/
def containsSub (pat : List Char) : List Char → Bool
  | [] => pat.isEmpty
  | c :: cs => leadsWith pat (c :: cs) || containsSub pat cs

/-- `str::trim` (both ends, whitespace). -/
def trimChars (l : List Char) : List Char :=
  (((l.dropWhile Char.isWhitespace).reverse.dropWhile Char.isWhitespace)).reverse

/-- Rust `str::replace("}", rep)`: every occurrence of the single-character
pattern is replaced, left to right, without rescanning the replacement. -/
def repAllBrace (rep : List Char) : List Char → List Char
  | [] => []
  | c :: cs => if c = rbraceChar then rep ++ repAllBrace rep cs else c :: repAllBrace rep cs

/-- Replacement text `"bg_fruit_orchard" }` (main.rs:424). -/
def orchardRep : List Char := "\"bg_fruit_orchard\" \x7d".data

/-- Replacement text `"bg_wool_farm" }` (main.rs:427). -/
def woolRep : List Char := "\"bg_wool_farm\" \x7d".data

/-- The resource-list marker `arable_resources` (main.rs:418). -/
def arableMarker : List Char := "arable_resources".data

/-- The livestock marker `bg_livestock_ranches` (main.rs:426). -/
def ranchMarker : List Char := "bg_livestock_ranches".data

/-- Per-line transform of states mode (main.rs:416-432): strip leading BOM
characters, and on a line whose trimmed content starts with
`arable_resources`, apply the farm-type replacement when a farm type occurs in
the line and then the livestock replacement when the (possibly already
modified) line contains the livestock marker. -/
def transformLineChars (l : List Char) : List Char :=
  let line := l.dropWhile (fun c => c == bomChar)
  if leadsWith arableMarker (trimChars line) then
    let m1 := if farmTypes.any (fun f => containsSub f.data line)
      then repAllBrace orchardRep line else line
    let m2 := if containsSub ranchMarker m1
      then repAllBrace woolRep m1 else m1
    m2
  else line

/-- String-level wrapper of the per-line transform. -/
def transformStateLine (s : String) : String :=
  String.mk (transformLineChars s.data)

/-- Replace the first `}` occurrence of a character list, leaving the rest
untouched (helper for the spec-side last-occurrence substitution). -/
def repFirstBrace (rep : List Char) : List Char → List Char
  | [] => []
  | c :: cs => if c = rbraceChar then rep ++ cs else c :: repFirstBrace rep cs

/-- Modelled from the spec: the substitution described by the spec's states
mode, which replaces only the *last* `}` occurrence of the line (the first
occurrence of the reversed list), leaving earlier occurrences untouched. -/
def repLastBrace (rep : List Char) (l : List Char) : List Char :=
  (repFirstBrace rep.reverse l.reverse).reverse


/-! ## Helper lemmas -/

theorem sum_set_add (x : ℤ) : ∀ (l : List ℤ) (p : Nat), p < l.length →
    (l.set p (l.getD p 0 + x)).sum = l.sum + x
  | [], p, hp => absurd hp (by simp)
  | c :: cs, 0, _ => by
    simp [List.getD_cons_zero]
    ring
  | c :: cs, p + 1, hp => by
    have ih := sum_set_add x cs p (by simpa using hp)
    simp only [List.set_cons_succ, List.getD_cons_succ, List.sum_cons, ih]
    ring

theorem decFix_length (k : Nat) : ∀ (l : List ℤ) (i : Nat), ((decFix l i k).1).length = l.length := by
  induction k with
  | zero => intro l i; rfl
  | succ k ih =>
    intro l i
    simp only [decFix]
    rw [ih, List.length_set]

theorem incFix_length (k : Nat) : ∀ (l : List ℤ) (i : Nat), ((incFix l i k).1).length = l.length := by
  induction k with
  | zero => intro l i; rfl
  | succ k ih =>
    intro l i
    simp only [incFix]
    rw [ih, List.length_set]

theorem decFix_sum (k : Nat) : ∀ (l : List ℤ) (i : Nat), 0 < l.length →
    ((decFix l i k).1).sum = l.sum - k := by
  induction k with
  | zero => intro l i _; simp [decFix]
  | succ k ih =>
    intro l i hl
    have hp : l.length - 1 - i < l.length := by omega
    have hset := sum_set_add (-1) l (l.length - 1 - i) hp
    simp only [decFix]
    rw [ih _ _ (by rw [List.length_set]; exact hl)]
    rw [show l.getD (l.length - 1 - i) 0 - 1 = l.getD (l.length - 1 - i) 0 + (-1) by ring, hset]
    push_cast
    ring

theorem incFix_sum (k : Nat) : ∀ (l : List ℤ) (i : Nat), i < l.length →
    ((incFix l i k).1).sum = l.sum + k := by
  induction k with
  | zero => intro l i _; simp [incFix]
  | succ k ih =>
    intro l i hi
    have hset := sum_set_add 1 l i hi
    simp only [incFix]
    rw [ih _ _ (by rw [List.length_set]; exact Nat.mod_lt _ (by omega))]
    rw [hset]
    push_cast
    ring

theorem fixup_sum (raw : List ℤ) (M : ℤ) (h : 0 < raw.length) : (fixup raw M).sum = M := by
  unfold fixup
  by_cases hM : M ≤ raw.sum
  · rw [if_pos hM, decFix_sum _ _ _ h, Int.toNat_of_nonneg (by omega)]
    ring
  · rw [if_neg hM, incFix_sum _ _ _ h, Int.toNat_of_nonneg (by omega)]
    ring

theorem countP_range_succ (f : Nat → Bool) (k : Nat) :
    (List.range (k + 1)).countP f =
      (List.range k).countP (fun t => f (t + 1)) + (if f 0 then 1 else 0) := by
  rw [List.range_succ_eq_map, List.countP_cons, List.countP_map]
  rfl

theorem decFix_getD (k : Nat) : ∀ (l : List ℤ) (i j : Nat), i < l.length → j < l.length →
    ((decFix l i k).1).getD j 0 =
      l.getD j 0 -
        ((List.range k).countP (fun t => l.length - 1 - ((i + t) % l.length) == j) : ℤ) := by
  induction k with
  | zero => intro l i j _ _; simp [decFix]
  | succ k ih =>
    intro l i j hi hj
    have hn : 0 < l.length := Nat.lt_of_le_of_lt (Nat.zero_le i) hi
    set n := l.length with hnd
    set p := n - 1 - i with hpd
    have hp : p < n := by omega
    set l' := l.set p (l.getD p 0 - 1) with hl'
    have hlen : l'.length = n := by rw [hl', List.length_set]
    have hi' : (i + 1) % n < n := Nat.mod_lt _ hn
    have step : (decFix l i (k + 1)).1 = (decFix l' ((i + 1) % n) k).1 := by
      conv_lhs => rw [decFix]
    rw [step, ih l' ((i + 1) % n) j (by rw [hlen]; exact hi') (by rw [hlen]; exact hj)]
    have hcount : (List.range (k + 1)).countP (fun t => n - 1 - ((i + t) % n) == j) =
        (List.range k).countP (fun t => l'.length - 1 - (((i + 1) % n + t) % l'.length) == j) +
          (if p == j then 1 else 0) := by
      rw [countP_range_succ]
      congr 1
      · apply List.countP_congr
        intro t _
        rw [hlen]
        have hmod : ((i + 1) % n + t) % n = (i + (t + 1)) % n := by
          rw [Nat.mod_add_mod]
          congr 1
          omega
        rw [hmod]
      · congr 1
        rw [Nat.add_zero, Nat.mod_eq_of_lt hi]
    have hget : l'.getD j 0 = l.getD j 0 - (if p == j then 1 else 0) := by
      by_cases hpj : p = j
      · rw [hl', List.getD_eq_getElem?_getD, List.getD_eq_getElem?_getD, hpj,
          List.getElem?_set_self (by omega)]
        simp [hpj]
      · rw [hl', List.getD_eq_getElem?_getD, List.getD_eq_getElem?_getD,
          List.getElem?_set_ne hpj]
        simp [hpj]
    rw [hget, hcount]
    push_cast
    by_cases hpj : (p == j)
    · simp [hpj]; ring
    · simp [hpj]

theorem incFix_getD (k : Nat) : ∀ (l : List ℤ) (i j : Nat), i < l.length → j < l.length →
    ((incFix l i k).1).getD j 0 =
      l.getD j 0 + ((List.range k).countP (fun t => (i + t) % l.length == j) : ℤ) := by
  induction k with
  | zero => intro l i j _ _; simp [incFix]
  | succ k ih =>
    intro l i j hi hj
    have hn : 0 < l.length := Nat.lt_of_le_of_lt (Nat.zero_le i) hi
    set n := l.length with hnd
    set l' := l.set i (l.getD i 0 + 1) with hl'
    have hlen : l'.length = n := by rw [hl', List.length_set]
    have hi' : (i + 1) % n < n := Nat.mod_lt _ hn
    have step : (incFix l i (k + 1)).1 = (incFix l' ((i + 1) % n) k).1 := by
      conv_lhs => rw [incFix]
    rw [step, ih l' ((i + 1) % n) j (by rw [hlen]; exact hi') (by rw [hlen]; exact hj)]
    have hcount : (List.range (k + 1)).countP (fun t => (i + t) % n == j) =
        (List.range k).countP (fun t => ((i + 1) % n + t) % l'.length == j) +
          (if i == j then 1 else 0) := by
      rw [countP_range_succ]
      congr 1
      · apply List.countP_congr
        intro t _
        rw [hlen]
        have hmod : ((i + 1) % n + t) % n = (i + (t + 1)) % n := by
          rw [Nat.mod_add_mod]
          congr 1
          omega
        rw [hmod]
      · congr 1
        rw [Nat.add_zero, Nat.mod_eq_of_lt hi]
    have hget : l'.getD j 0 = l.getD j 0 + (if i == j then 1 else 0) := by
      by_cases hij : i = j
      · rw [hl', List.getD_eq_getElem?_getD, List.getD_eq_getElem?_getD, hij,
          List.getElem?_set_self (by omega)]
        simp [hij]
      · rw [hl', List.getD_eq_getElem?_getD, List.getD_eq_getElem?_getD,
          List.getElem?_set_ne hij]
        simp [hij]
    rw [hget, hcount]
    push_cast
    by_cases hij : (i == j)
    · simp [hij]; ring
    · simp [hij]

theorem roundAway_nonneg_le (q : ℚ) (z : ℤ) (h : 0 ≤ q) (hq : q ≤ (z : ℚ)) :
    roundAway q ≤ z := by
  rw [roundAway, if_pos h]
  have : ⌊q + 1/2⌋ < z + 1 := by
    apply Int.floor_lt.mpr
    push_cast
    linarith
  omega

theorem roundAway_le_of_neg (q : ℚ) (h : ¬ 0 ≤ q) : roundAway q ≤ 0 := by
  rw [roundAway, if_neg h]
  have : (0 : ℤ) ≤ ⌊-q + 1/2⌋ := by
    apply Int.le_floor.mpr
    push_cast
    linarith
  omega

theorem roundAway_lower (q : ℚ) (h : 0 ≤ q) : q - 1/2 < (roundAway q : ℚ) := by
  rw [roundAway, if_pos h]
  have := Int.lt_floor_add_one (q + 1/2)
  push_cast at this ⊢
  linarith

theorem roundAway_upper (q : ℚ) (h : 0 ≤ q) : (roundAway q : ℚ) ≤ q + 1/2 := by
  rw [roundAway, if_pos h]
  exact Int.floor_le _

/-- `modded_building_levels` never exceeds the total level count. -/
theorem moddedLevelsTotal_le (T R : Nat) (hR : 1 ≤ R) : moddedLevelsTotal T R ≤ T := by
  rw [moddedLevelsTotal, Int.toNat_le]
  by_cases h : 0 ≤ (T : ℚ) / (R : ℚ) - 1/10
  · apply roundAway_nonneg_le _ _ h
    have hdiv : (T : ℚ) / (R : ℚ) ≤ (T : ℚ) :=
      div_le_self (by positivity) (by exact_mod_cast hR)
    push_cast
    linarith
  · calc roundAway ((T : ℚ) / (R : ℚ) - 1/10) ≤ 0 := roundAway_le_of_neg _ h
      _ ≤ (T : ℤ) := by positivity

/-- A raw allocation never exceeds the owner's levels, provided the modded
total does not exceed the building total. -/
theorem rawAlloc_le (M T lv : Nat) (hM : M ≤ T) (hT : 0 < T) : rawAlloc M T lv ≤ lv := by
  rw [rawAlloc, Int.toNat_le]
  have hq : (0 : ℚ) ≤ (M : ℚ) * ((lv : ℚ) / (T : ℚ)) := by positivity
  apply roundAway_nonneg_le _ _ hq
  have hTq : (0 : ℚ) < (T : ℚ) := by exact_mod_cast hT
  have h1 : (M : ℚ) * ((lv : ℚ) / (T : ℚ)) ≤ (T : ℚ) * ((lv : ℚ) / (T : ℚ)) := by
    apply mul_le_mul_of_nonneg_right (by exact_mod_cast hM) (by positivity)
  have h2 : (T : ℚ) * ((lv : ℚ) / (T : ℚ)) = (lv : ℚ) := by
    field_simp
  rw [h2] at h1
  exact_mod_cast h1

/-- The descending sort is a permutation of the input. -/
theorem sortOwners_perm (owners : List Owner) : (sortOwners owners).Perm owners :=
  (List.reverse_perm _).trans (List.perm_insertionSort _ _)

theorem sortOwners_length (owners : List Owner) : (sortOwners owners).length = owners.length :=
  (sortOwners_perm owners).length_eq

/-- The sorted list is descending by levels. -/
theorem sortOwners_sorted (owners : List Owner) :
    (sortOwners owners).Sorted (fun a b => b.levels ≤ a.levels) := by
  rw [sortOwners, List.Sorted, List.pairwise_reverse]
  have := List.sorted_insertionSort ownerLe owners
  rw [List.Sorted] at this
  exact this.imp (fun h => h)

theorem takeWhile_append_all {α : Type} (p : α → Bool) :
    ∀ (l1 l2 : List α), (∀ x ∈ l1, p x = true) →
      List.takeWhile p (l1 ++ l2) = l1 ++ List.takeWhile p l2 := by
  intro l1
  induction l1 with
  | nil => intro l2 _; simp
  | cons c cs ih =>
    intro l2 h
    have hc : p c = true := h c (by simp)
    have ht := ih l2 (fun x hx => h x (by simp [hx]))
    simp [List.takeWhile_cons, hc, ht]

theorem takeWhile_nil_of_all_false {α : Type} (p : α → Bool) (l : List α)
    (h : ∀ x ∈ l, p x = false) : List.takeWhile p l = [] := by
  cases l with
  | nil => rfl
  | cons c cs => simp [List.takeWhile_cons, h c (by simp)]

theorem count_one_split (l : List Char) (h : l.count rbraceChar = 1) :
    ∃ a b, l = a ++ rbraceChar :: b ∧ rbraceChar ∉ a ∧ rbraceChar ∉ b := by
  induction l with
  | nil => simp at h
  | cons c cs ih =>
    rw [List.count_cons] at h
    by_cases hc : c = rbraceChar
    · subst hc
      simp at h
      exact ⟨[], cs, rfl, by simp, List.count_eq_zero.mp h⟩
    · have hbeq : (c == rbraceChar) = false := by simp [hc]
      have hbeq' : (rbraceChar == c) = false := by
        simp
        exact fun hcc => hc hcc.symm
      simp only [hbeq, hbeq', if_neg Bool.false_ne_true, Nat.add_zero] at h
      obtain ⟨a, b, hab, ha, hb⟩ := ih h
      refine ⟨c :: a, b, by rw [hab, List.cons_append], ?_, hb⟩
      intro hm
      rcases List.mem_cons.mp hm with h1 | h2
      · exact hc h1.symm
      · exact ha h2

theorem repAllBrace_of_not_mem (rep : List Char) :
    ∀ l : List Char, rbraceChar ∉ l → repAllBrace rep l = l := by
  intro l
  induction l with
  | nil => intro _; rfl
  | cons c cs ih =>
    intro h
    have hc : ¬ c = rbraceChar := fun hc => h (by simp [hc])
    rw [repAllBrace, if_neg hc, ih (fun hm => h (by simp [hm]))]

theorem repAllBrace_append (rep : List Char) :
    ∀ l1 l2 : List Char, rbraceChar ∉ l1 →
      repAllBrace rep (l1 ++ l2) = l1 ++ repAllBrace rep l2 := by
  intro l1
  induction l1 with
  | nil => intro l2 _; rfl
  | cons c cs ih =>
    intro l2 h
    have hc : ¬ c = rbraceChar := fun hc => h (by simp [hc])
    rw [List.cons_append, repAllBrace, if_neg hc, ih l2 (fun hm => h (by simp [hm]))]
    rfl

theorem repFirstBrace_append (rep : List Char) :
    ∀ l1 l2 : List Char, rbraceChar ∉ l1 →
      repFirstBrace rep (l1 ++ l2) = l1 ++ repFirstBrace rep l2 := by
  intro l1
  induction l1 with
  | nil => intro l2 _; rfl
  | cons c cs ih =>
    intro l2 h
    have hc : ¬ c = rbraceChar := fun hc => h (by simp [hc])
    rw [List.cons_append, repFirstBrace, if_neg hc, ih l2 (fun hm => h (by simp [hm]))]
    rfl

/-- When a line holds exactly one closing brace, replacing every occurrence
(the source's `str::replace`) coincides with replacing only the last one (the
spec's description). -/
theorem repAll_eq_repLast_of_count_one (rep : List Char) (l : List Char)
    (h : l.count rbraceChar = 1) : repAllBrace rep l = repLastBrace rep l := by
  obtain ⟨a, b, hab, ha, hb⟩ := count_one_split l h
  subst hab
  rw [repAllBrace_append rep a _ ha, repAllBrace, if_pos rfl, repAllBrace_of_not_mem rep b hb]
  rw [repLastBrace, List.reverse_append, List.reverse_cons, List.append_assoc,
    repFirstBrace_append rep.reverse _ _ (by simpa using hb)]
  rw [show ([rbraceChar] ++ a.reverse) = rbraceChar :: a.reverse from rfl,
    repFirstBrace, if_pos rfl]
  simp

/-! ## Claim theorems -/

/-- C1: for every building occurrence processed by the redistribution engine
with total level count `T > 0`, ratio `R ≥ 1`, and any owner-levels partition
of `T`, the per-owner delta sequence satisfies
`sum(per_owner_delta) = modded_levels_total` exactly, and
`modded_levels_total ≤ T`. -/
theorem engine_conservation (owners : List Owner) (R : Nat) (hR : 1 ≤ R)
    (hT : 0 < totalLevels owners) :
    (planDeltas owners R).sum = (moddedLevelsTotal (totalLevels owners) R : ℤ) ∧
    moddedLevelsTotal (totalLevels owners) R ≤ totalLevels owners := by
  constructor
  · have hne : owners ≠ [] := by
      intro hnil
      rw [hnil] at hT
      simp [totalLevels] at hT
    simp only [planDeltas]
    apply fixup_sum
    rw [List.length_map, sortOwners_length]
    exact List.length_pos.mpr hne
  · exact moddedLevelsTotal_le _ _ hR

/-- Witness for C1 at T = 10, R = 4, owners [7, 3] (the spec's own example). -/
theorem engine_conservation_witness :
    1 ≤ 4 ∧ 0 < totalLevels [⟨none, "a", 7, ""⟩, ⟨none, "b", 3, ""⟩] ∧
    ((planDeltas [⟨none, "a", 7, ""⟩, ⟨none, "b", 3, ""⟩] 4).sum =
        (moddedLevelsTotal (totalLevels [⟨none, "a", 7, ""⟩, ⟨none, "b", 3, ""⟩]) 4 : ℤ) ∧
      moddedLevelsTotal (totalLevels [⟨none, "a", 7, ""⟩, ⟨none, "b", 3, ""⟩]) 4 ≤
        totalLevels [⟨none, "a", 7, ""⟩, ⟨none, "b", 3, ""⟩]) :=
  ⟨by decide, by decide,
    engine_conservation [⟨none, "a", 7, ""⟩, ⟨none, "b", 3, ""⟩] 4 (by decide) (by decide)⟩

/-- C10: the conservation check after the remainder fix-up never fires — for
every raw-allocation list reaching the fix-up (non-empty), the deltas sum to
the target on exit of the two loops, so `fixupChecked` always takes the `ok`
branch and the distinct failure message is unreachable. -/
theorem conservation_check_unreachable (raw : List ℤ) (M : ℤ) (h : raw ≠ []) :
    fixupChecked raw M = Except.ok (fixup raw M) := by
  have hl : 0 < raw.length := List.length_pos.mpr h
  simp only [fixupChecked, fixup_sum raw M hl]
  simp

/-- Witness for C10 at raw = [1, 1], M = 3 (increment path). -/
theorem conservation_check_unreachable_witness :
    ([(1 : ℤ), 1] ≠ []) ∧ fixupChecked [(1 : ℤ), 1] 3 = Except.ok (fixup [(1 : ℤ), 1] 3) :=
  ⟨by decide, conservation_check_unreachable [(1 : ℤ), 1] 3 (by decide)⟩

/-- C5: the remainder fix-up acts exactly as specified.  When the raw sum
exceeds the target, owner `j` of the sorted list loses one unit for each of
the `sum - M` decrement steps `t` whose cycling position `n - 1 - (t % n)`
(starting from the last owner and wrapping backward-to-forward modulo the
owner count) equals `j`; when the raw sum is below the target, owner `j`
gains one unit for each of the `M - sum` increment steps `t` with
`t % n = j` (starting from the first owner and cycling forward). -/
theorem fixup_matches_spec (raw : List ℤ) (M : ℤ) (j : Nat)
    (h : 0 < raw.length) (hj : j < raw.length) :
    (fixup raw M).getD j 0 =
      if M ≤ raw.sum then
        raw.getD j 0 - ((List.range (raw.sum - M).toNat).countP
            (fun t => raw.length - 1 - (t % raw.length) == j) : ℤ)
      else
        raw.getD j 0 + ((List.range (M - raw.sum).toNat).countP
            (fun t => t % raw.length == j) : ℤ) := by
  simp only [fixup]
  by_cases hM : M ≤ raw.sum
  · rw [if_pos hM, if_pos hM, decFix_getD _ _ _ _ h hj]
    have hfun : (fun t => raw.length - 1 - ((0 + t) % raw.length) == j) =
        (fun t => raw.length - 1 - (t % raw.length) == j) := by
      funext t
      rw [Nat.zero_add]
    rw [hfun]
  · rw [if_neg hM, if_neg hM, incFix_getD _ _ _ _ h hj]
    have hfun : (fun t => (0 + t) % raw.length == j) =
        (fun t => t % raw.length == j) := by
      funext t
      rw [Nat.zero_add]
    rw [hfun]

/-- Witness for C5 at raw = [2, 1, 0], M = 1, j = 1 (decrement path: two
decrements hit indices 2 then 1). -/
theorem fixup_matches_spec_witness :
    0 < ([(2 : ℤ), 1, 0] : List ℤ).length ∧ 1 < ([(2 : ℤ), 1, 0] : List ℤ).length ∧
    (fixup [(2 : ℤ), 1, 0] 1).getD 1 0 =
      (if (1 : ℤ) ≤ ([(2 : ℤ), 1, 0] : List ℤ).sum then
        ([(2 : ℤ), 1, 0] : List ℤ).getD 1 0 -
          ((List.range (([(2 : ℤ), 1, 0] : List ℤ).sum - 1).toNat).countP
              (fun t => ([(2 : ℤ), 1, 0] : List ℤ).length - 1 -
                (t % ([(2 : ℤ), 1, 0] : List ℤ).length) == 1) : ℤ)
      else
        ([(2 : ℤ), 1, 0] : List ℤ).getD 1 0 +
          ((List.range ((1 - ([(2 : ℤ), 1, 0] : List ℤ).sum)).toNat).countP
              (fun t => t % ([(2 : ℤ), 1, 0] : List ℤ).length == 1) : ℤ)) :=
  ⟨by decide, by decide, fixup_matches_spec [(2 : ℤ), 1, 0] 1 1 (by decide) (by decide)⟩

/-- C3: the engine computes `modded_levels_total` as the round-half-away-from
-zero rounding of the adjusted value `T / R - 0.1` — characterised here by the
two-sided bound `x - 1/2 < M ≤ x + 1/2` for the adjusted value `x` (with the
0-saturation of the `as u16` cast at negative adjusted values) — and whenever
this value is 0 the occurrence is left untouched: no removal line and no
creation records are emitted for it. -/
theorem zero_split_skip (b : Building) (r : Nat) (tg : String)
    (hr : ratioOf b.btype = some (r, tg)) (hR : 1 ≤ r) :
    ((moddedLevelsTotal (totalLevels b.owners) r : ℚ) ≤
        (totalLevels b.owners : ℚ) / (r : ℚ) - 1/10 + 1/2 ∧
      (totalLevels b.owners : ℚ) / (r : ℚ) - 1/10 - 1/2 <
        (moddedLevelsTotal (totalLevels b.owners) r : ℚ)) ∧
    (moddedLevelsTotal (totalLevels b.owners) r = 0 → transformBuilding b = []) := by
  constructor
  · have hgen : ∀ x : ℚ, -(1/10) ≤ x →
        ((((roundAway x).toNat : ℕ) : ℚ) ≤ x + 1/2 ∧
          x - 1/2 < (((roundAway x).toNat : ℕ) : ℚ)) := by
      intro x hx0
      by_cases h : 0 ≤ x
      · have hra : (0 : ℤ) ≤ roundAway x := by
          rw [roundAway, if_pos h]
          apply Int.le_floor.mpr
          push_cast
          linarith
        have hcast : (((roundAway x).toNat : ℕ) : ℚ) = ((roundAway x : ℤ) : ℚ) := by
          exact_mod_cast congrArg (fun z : ℤ => (z : ℚ)) (Int.toNat_of_nonneg hra)
        have hu := roundAway_upper x h
        have hl := roundAway_lower x h
        rw [hcast]
        exact ⟨hu, hl⟩
      · have hM0 : (roundAway x).toNat = 0 := Int.toNat_eq_zero.mpr (roundAway_le_of_neg x h)
        have hxneg : x < 0 := lt_of_not_le h
        rw [hM0]
        push_cast
        exact ⟨by linarith, by linarith⟩
    have hx0 : -(1/10 : ℚ) ≤ (totalLevels b.owners : ℚ) / (r : ℚ) - 1/10 := by
      have hq : (0 : ℚ) ≤ (totalLevels b.owners : ℚ) / (r : ℚ) := by positivity
      linarith
    simpa only [moddedLevelsTotal] using hgen ((totalLevels b.owners : ℚ) / (r : ℚ) - 1/10) hx0
  · intro hM
    simp only [transformBuilding, hr, hM]
    simp

/-- Witness for C3: a livestock ranch with a single level — the adjusted value
is 2/5, the modded total rounds to 0, and the transformer emits nothing. -/
theorem zero_split_skip_witness :
    ratioOf "building_livestock_ranch" = some (2, "building_wool_farm") ∧ 1 ≤ 2 ∧
    (((moddedLevelsTotal (totalLevels [⟨none, "a", 1, ""⟩]) 2 : ℚ) ≤
        (totalLevels [⟨none, "a", 1, ""⟩] : ℚ) / (2 : ℚ) - 1/10 + 1/2 ∧
      (totalLevels [⟨none, "a", 1, ""⟩] : ℚ) / (2 : ℚ) - 1/10 - 1/2 <
        (moddedLevelsTotal (totalLevels [⟨none, "a", 1, ""⟩]) 2 : ℚ)) ∧
    (moddedLevelsTotal (totalLevels [⟨none, "a", 1, ""⟩]) 2 = 0 →
      transformBuilding ⟨"building_livestock_ranch", [⟨none, "a", 1, ""⟩], "100"⟩ = [])) :=
  ⟨by decide, by decide,
    zero_split_skip ⟨"building_livestock_ranch", [⟨none, "a", 1, ""⟩], "100"⟩ 2
      ("building_wool_farm") (by decide) (by decide)⟩

/-- C2 (amended): in buildings mode a `create_building` occurrence whose type
is absent from the conversion table contributes nothing at all to the output
region block — it is dropped, not passed through (the output holds only the
generated removal/creation lines of matched occurrences). -/
theorem unmatched_building_dropped (b : Building) (hb : ratioOf b.btype = none)
    (es : List RegionEntry) :
    transformRegion (RegionEntry.createBuilding b :: es) = transformRegion es := by
  simp [transformRegion, transformBuilding, hb]

/-- Witness for the amended C2. -/
theorem unmatched_building_dropped_witness :
    ratioOf "building_iron_mine" = none ∧
    transformRegion
        [RegionEntry.createBuilding ⟨"building_iron_mine", [⟨none, "AAA", 5, "r1"⟩], "100"⟩] =
      transformRegion [] :=
  ⟨by decide,
    unmatched_building_dropped ⟨"building_iron_mine", [⟨none, "AAA", 5, "r1"⟩], "100"⟩
      (by decide) []⟩

/-- C2 counterexample: a region block holding one `create_building`
occurrence of an unmatched type produces an *empty* output entry list — in
particular the output does not contain the input `create_building` entry, so
the input region block does not pass through unchanged as claimed
(main.rs:117-131 skips without echoing). -/
theorem unmatched_passthrough_counterexample :
    ratioOf "building_iron_mine" = none ∧
    (⟨"building_iron_mine", [⟨none, "AAA", 5, "r1"⟩], "100"⟩ : Building).owners ≠ [] ∧
    transformRegion
        [RegionEntry.createBuilding ⟨"building_iron_mine", [⟨none, "AAA", 5, "r1"⟩], "100"⟩] =
      [] :=
  ⟨by decide, by decide, by decide⟩

/-- C4 (amended): before allocation the owner list is sorted descending by
levels and the sorted list is a permutation of the input; but the claimed
stability does not hold — the sort is an ascending unstable sort followed by
a reversal, so owners with equal levels come out in reversed relative order
(see the counterexample). -/
theorem sort_descending_perm (owners : List Owner) :
    (sortOwners owners).Perm owners ∧
    (sortOwners owners).Sorted (fun a b => b.levels ≤ a.levels) :=
  ⟨sortOwners_perm owners, sortOwners_sorted owners⟩

/-- C4 counterexample: two owners with equal levels come out of the sort in
reversed original order, refuting the claimed tie stability. -/
theorem sort_stability_counterexample :
    sortOwners [⟨none, "A", 5, ""⟩, ⟨none, "B", 5, ""⟩] =
      [⟨none, "B", 5, ""⟩, ⟨none, "A", 5, ""⟩] ∧
    ([⟨none, "B", 5, ""⟩, ⟨none, "A", 5, ""⟩] : List Owner) ≠
      [⟨none, "A", 5, ""⟩, ⟨none, "B", 5, ""⟩] :=
  ⟨by decide, by decide⟩

/-- The target-building block entry always carries its delta as levels. -/
theorem moddedEntry_lv (bt tg : String) (o : Owner) (d : ℤ) : (moddedEntry bt tg o d).lv = d := by
  rcases o with ⟨st, c, lv, rg⟩
  cases st <;> rfl

/-- C7: for every sub-building owner of a split building, the owner's declared
type is rewritten to the target building type in the target-building block
exactly when it equals the split building's own type, while in the
reduced-original block every owner's declared type is emitted unchanged.  The
first conjunct fixes the shape of the transformer's output; the others relate
the printed type column of each output block to the declared types of the
sorted owner/delta pairs. -/
theorem self_migration (b : Building) (r : Nat) (tg : String)
    (hr : ratioOf b.btype = some (r, tg))
    (hM : moddedLevelsTotal (totalLevels b.owners) r ≠ 0) :
    transformBuilding b =
      [ BLine.remove b.btype,
        BLine.create ⟨b.btype,
          reducedOwners (sortOwners b.owners) (planDeltas b.owners r), none⟩,
        BLine.create ⟨tg,
          moddedOwners b.btype tg (sortOwners b.owners) (planDeltas b.owners r),
          some b.reserves⟩ ] ∧
    (reducedOwners (sortOwners b.owners) (planDeltas b.owners r)).map OwnerOut.otype =
      ((sortOwners b.owners).zip (planDeltas b.owners r)).map (fun p => p.1.subType) ∧
    (moddedOwners b.btype tg (sortOwners b.owners) (planDeltas b.owners r)).map OwnerOut.otype =
      (((sortOwners b.owners).zip (planDeltas b.owners r)).takeWhile (fun p => p.2 != 0)).map
        (fun p => p.1.subType.map (fun ty => if ty = b.btype then tg else ty)) := by
  refine ⟨?_, ?_, ?_⟩
  · simp only [transformBuilding, hr, planDeltas]
    rw [if_neg hM]
  · rw [reducedOwners, List.map_map]
    have hfun : (OwnerOut.otype ∘ fun p : Owner × ℤ => reducedEntry p.1 p.2) =
        (fun p : Owner × ℤ => p.1.subType) := by
      funext p
      rcases p with ⟨⟨st, c, lv, rg⟩, d⟩
      cases st <;> rfl
    rw [hfun]
  · rw [moddedOwners, List.map_map]
    have hfun : (OwnerOut.otype ∘ fun p : Owner × ℤ => moddedEntry b.btype tg p.1 p.2) =
        (fun p : Owner × ℤ => p.1.subType.map (fun ty => if ty = b.btype then tg else ty)) := by
      funext p
      rcases p with ⟨⟨st, c, lv, rg⟩, d⟩
      cases st <;> rfl
    rw [hfun]

/-- Witness for C7: a textile mill owned by a sub-building of its own type
(levels 7) and a country (levels 3). -/
theorem self_migration_witness :
    ratioOf "building_textile_mill" = some (4, "building_tailoring_workshop") ∧
    moddedLevelsTotal
        (totalLevels [⟨some "building_textile_mill", "a", 7, "r1"⟩, ⟨none, "b", 3, ""⟩]) 4 ≠ 0 ∧
    (transformBuilding
        ⟨"building_textile_mill",
          [⟨some "building_textile_mill", "a", 7, "r1"⟩, ⟨none, "b", 3, ""⟩], "5000"⟩ =
      [ BLine.remove "building_textile_mill",
        BLine.create ⟨"building_textile_mill",
          reducedOwners
            (sortOwners [⟨some "building_textile_mill", "a", 7, "r1"⟩, ⟨none, "b", 3, ""⟩])
            (planDeltas [⟨some "building_textile_mill", "a", 7, "r1"⟩, ⟨none, "b", 3, ""⟩] 4),
          none⟩,
        BLine.create ⟨"building_tailoring_workshop",
          moddedOwners "building_textile_mill" "building_tailoring_workshop"
            (sortOwners [⟨some "building_textile_mill", "a", 7, "r1"⟩, ⟨none, "b", 3, ""⟩])
            (planDeltas [⟨some "building_textile_mill", "a", 7, "r1"⟩, ⟨none, "b", 3, ""⟩] 4),
          some "5000"⟩ ] ∧
    (reducedOwners
        (sortOwners [⟨some "building_textile_mill", "a", 7, "r1"⟩, ⟨none, "b", 3, ""⟩])
        (planDeltas [⟨some "building_textile_mill", "a", 7, "r1"⟩, ⟨none, "b", 3, ""⟩] 4)).map
          OwnerOut.otype =
      ((sortOwners [⟨some "building_textile_mill", "a", 7, "r1"⟩, ⟨none, "b", 3, ""⟩]).zip
        (planDeltas [⟨some "building_textile_mill", "a", 7, "r1"⟩, ⟨none, "b", 3, ""⟩] 4)).map
          (fun p => p.1.subType) ∧
    (moddedOwners "building_textile_mill" "building_tailoring_workshop"
        (sortOwners [⟨some "building_textile_mill", "a", 7, "r1"⟩, ⟨none, "b", 3, ""⟩])
        (planDeltas [⟨some "building_textile_mill", "a", 7, "r1"⟩, ⟨none, "b", 3, ""⟩] 4)).map
          OwnerOut.otype =
      (((sortOwners [⟨some "building_textile_mill", "a", 7, "r1"⟩, ⟨none, "b", 3, ""⟩]).zip
          (planDeltas [⟨some "building_textile_mill", "a", 7, "r1"⟩, ⟨none, "b", 3, ""⟩] 4)).takeWhile
            (fun p => p.2 != 0)).map
          (fun p => p.1.subType.map
            (fun ty => if ty = "building_textile_mill" then "building_tailoring_workshop" else ty))) :=
  ⟨by decide,
    by
      rw [show totalLevels [⟨some "building_textile_mill", "a", 7, "r1"⟩, ⟨none, "b", 3, ""⟩] = 10
          from by decide]
      rw [moddedLevelsTotal, roundAway]
      norm_num,
    self_migration
      ⟨"building_textile_mill",
        [⟨some "building_textile_mill", "a", 7, "r1"⟩, ⟨none, "b", 3, ""⟩], "5000"⟩ 4
      ("building_tailoring_workshop") (by decide)
      (by
        rw [show totalLevels [⟨some "building_textile_mill", "a", 7, "r1"⟩, ⟨none, "b", 3, ""⟩] = 10
            from by decide]
        rw [moddedLevelsTotal, roundAway]
        norm_num)⟩

/-- C6 (amended): the target-building block never contains a zero-delta owner,
and whenever the zero deltas form a suffix of the sorted owner/delta sequence
every owner with a nonzero delta appears, with levels equal to its delta.
(The emission loop at main.rs:263-266 `break`s at the first zero delta, so an
owner with a nonzero delta *after* a zero delta — reachable only through a
negative delta — is omitted; see the counterexample.) -/
theorem modded_block_omission (bt tg : String) (sorted : List Owner) (deltas : List ℤ)
    (pre post : List (Owner × ℤ))
    (hsplit : sorted.zip deltas = pre ++ post)
    (hpre : ∀ p ∈ pre, p.2 ≠ 0) (hpost : ∀ p ∈ post, p.2 = 0) :
    moddedOwners bt tg sorted deltas = pre.map (fun p => moddedEntry bt tg p.1 p.2) ∧
    ∀ e ∈ moddedOwners bt tg sorted deltas, e.lv ≠ 0 := by
  have htw : (sorted.zip deltas).takeWhile (fun p => p.2 != 0) = pre := by
    rw [hsplit,
      takeWhile_append_all _ pre post (fun p hp => by
        simp only [bne_iff_ne, ne_eq]
        exact hpre p hp),
      takeWhile_nil_of_all_false _ post (fun p hp => by
        simp only [bne_eq_false_iff_eq]
        exact hpost p hp),
      List.append_nil]
  constructor
  · rw [moddedOwners, htw]
  · intro e he
    rw [moddedOwners, htw] at he
    obtain ⟨p, hp, hpe⟩ := List.mem_map.mp he
    rw [← hpe, moddedEntry_lv]
    exact hpre p hp

/-- Witness for the amended C6: two country owners with deltas [1, 1]; both
appear, no zero-delta entry exists. -/
theorem modded_block_omission_witness :
    (([⟨none, "a", 7, ""⟩, ⟨none, "b", 3, ""⟩] : List Owner).zip ([1, 1] : List ℤ) =
      [(⟨none, "a", 7, ""⟩, 1), (⟨none, "b", 3, ""⟩, 1)] ++ []) ∧
    (∀ p ∈ ([(⟨none, "a", 7, ""⟩, (1 : ℤ)), (⟨none, "b", 3, ""⟩, 1)] : List (Owner × ℤ)),
      p.2 ≠ 0) ∧
    (∀ p ∈ ([] : List (Owner × ℤ)), p.2 = 0) ∧
    (moddedOwners "bt" "tg" [⟨none, "a", 7, ""⟩, ⟨none, "b", 3, ""⟩] [1, 1] =
        ([(⟨none, "a", 7, ""⟩, (1 : ℤ)), (⟨none, "b", 3, ""⟩, 1)] : List (Owner × ℤ)).map
          (fun p => moddedEntry "bt" "tg" p.1 p.2) ∧
      ∀ e ∈ moddedOwners "bt" "tg" [⟨none, "a", 7, ""⟩, ⟨none, "b", 3, ""⟩] [1, 1], e.lv ≠ 0) :=
  ⟨by decide, by decide, by decide,
    modded_block_omission "bt" "tg" [⟨none, "a", 7, ""⟩, ⟨none, "b", 3, ""⟩] [1, 1]
      [(⟨none, "a", 7, ""⟩, 1), (⟨none, "b", 3, ""⟩, 1)] [] (by decide) (by decide) (by decide)⟩

/-- C6 counterexample: a wheat farm (ratio 6) with owner levels [4,4,4,1,1]
(total 14, modded total 2).  The raw allocations [1,1,1,0,0] overshoot by one,
the decrement fix-up drives the last sorted owner ("c4") to delta -1, and the
emission loop breaks at the zero delta of "c5" — so owner "c4", whose delta is
nonzero, does not appear in the target-building block, refuting the claim that
every owner with a nonzero delta appears. -/
theorem omission_break_counterexample :
    planDeltas [⟨none, "c1", 4, ""⟩, ⟨none, "c2", 4, ""⟩, ⟨none, "c3", 4, ""⟩,
        ⟨none, "c4", 1, ""⟩, ⟨none, "c5", 1, ""⟩] 6 = [1, 1, 1, 0, -1] ∧
    (sortOwners [⟨none, "c1", 4, ""⟩, ⟨none, "c2", 4, ""⟩, ⟨none, "c3", 4, ""⟩,
        ⟨none, "c4", 1, ""⟩, ⟨none, "c5", 1, ""⟩]).map Owner.country =
      ["c3", "c2", "c1", "c5", "c4"] ∧
    (moddedOwners ("building_wheat_farm") ("building_fruit_orchard")
        (sortOwners [⟨none, "c1", 4, ""⟩, ⟨none, "c2", 4, ""⟩, ⟨none, "c3", 4, ""⟩,
          ⟨none, "c4", 1, ""⟩, ⟨none, "c5", 1, ""⟩])
        (planDeltas [⟨none, "c1", 4, ""⟩, ⟨none, "c2", 4, ""⟩, ⟨none, "c3", 4, ""⟩,
          ⟨none, "c4", 1, ""⟩, ⟨none, "c5", 1, ""⟩] 6)).map OwnerOut.country =
      ["c3", "c2", "c1"] := by
  have hT : totalLevels [⟨none, "c1", 4, ""⟩, ⟨none, "c2", 4, ""⟩, ⟨none, "c3", 4, ""⟩,
      ⟨none, "c4", 1, ""⟩, ⟨none, "c5", 1, ""⟩] = 14 := by decide
  have hM : moddedLevelsTotal 14 6 = 2 := by
    rw [moddedLevelsTotal, roundAway]
    norm_num
    decide
  have hS : sortOwners [⟨none, "c1", 4, ""⟩, ⟨none, "c2", 4, ""⟩, ⟨none, "c3", 4, ""⟩,
      ⟨none, "c4", 1, ""⟩, ⟨none, "c5", 1, ""⟩] =
      [⟨none, "c3", 4, ""⟩, ⟨none, "c2", 4, ""⟩, ⟨none, "c1", 4, ""⟩,
        ⟨none, "c5", 1, ""⟩, ⟨none, "c4", 1, ""⟩] := by decide
  have h4 : rawAlloc 2 14 4 = 1 := by
    rw [rawAlloc, roundAway]
    norm_num
  have h1 : rawAlloc 2 14 1 = 0 := by
    rw [rawAlloc, roundAway]
    norm_num
  have hplan : planDeltas [⟨none, "c1", 4, ""⟩, ⟨none, "c2", 4, ""⟩, ⟨none, "c3", 4, ""⟩,
      ⟨none, "c4", 1, ""⟩, ⟨none, "c5", 1, ""⟩] 6 = [1, 1, 1, 0, -1] := by
    simp only [planDeltas, hT, hM, hS]
    simp only [List.map_cons, List.map_nil, h4, h1]
    decide
  refine ⟨hplan, by rw [hS]; decide, ?_⟩
  rw [hplan, hS]
  decide

theorem rawAlloc_ratCast (M T lv : Nat) :
    ((rawAlloc M T lv : ℕ) : ℚ) = ((roundAway ((M : ℚ) * ((lv : ℚ) / (T : ℚ)))) : ℚ) := by
  have hq : (0 : ℚ) ≤ (M : ℚ) * ((lv : ℚ) / (T : ℚ)) := by positivity
  have hra : (0 : ℤ) ≤ roundAway ((M : ℚ) * ((lv : ℚ) / (T : ℚ))) := by
    rw [roundAway, if_pos hq]
    apply Int.le_floor.mpr
    push_cast
    linarith
  rw [rawAlloc]
  exact_mod_cast congrArg (fun z : ℤ => (z : ℚ)) (Int.toNat_of_nonneg hra)

theorem rawAlloc_lower_q (M T lv : Nat) :
    (M : ℚ) * (lv : ℚ) / (T : ℚ) - 1/2 ≤ ((rawAlloc M T lv : ℕ) : ℚ) := by
  have hq : (0 : ℚ) ≤ (M : ℚ) * ((lv : ℚ) / (T : ℚ)) := by positivity
  rw [rawAlloc_ratCast]
  have h := roundAway_lower _ hq
  rw [mul_div_assoc]
  linarith

theorem rawAlloc_upper_q (M T lv : Nat) :
    ((rawAlloc M T lv : ℕ) : ℚ) ≤ (M : ℚ) * (lv : ℚ) / (T : ℚ) + 1/2 := by
  have hq : (0 : ℚ) ≤ (M : ℚ) * ((lv : ℚ) / (T : ℚ)) := by positivity
  rw [rawAlloc_ratCast, mul_div_assoc]
  exact roundAway_upper _ hq

/-- If an owner's raw allocation saturates at its full level count, so does
every owner with levels at most as large. -/
theorem rawAlloc_eq_of_le (M T lv lv' : Nat) (hM : M ≤ T) (hT : 0 < T)
    (h : rawAlloc M T lv = lv) (hle : lv' ≤ lv) : rawAlloc M T lv' = lv' := by
  have htq : (0 : ℚ) < (T : ℚ) := by exact_mod_cast hT
  have hMq : ((M : ℕ) : ℚ) ≤ (T : ℚ) := by exact_mod_cast hM
  have hleq : ((lv' : ℕ) : ℚ) ≤ (lv : ℚ) := by exact_mod_cast hle
  apply Nat.le_antisymm (rawAlloc_le M T lv' hM hT)
  have h1 : ((lv : ℕ) : ℚ) ≤ (M : ℚ) * (lv : ℚ) / (T : ℚ) + 1/2 := by
    have := rawAlloc_upper_q M T lv
    rw [h] at this
    exact this
  have h3' : (T : ℚ) * lv - (M : ℚ) * lv ≤ (T : ℚ) / 2 := by
    have h1' : ((lv : ℕ) : ℚ) - 1/2 ≤ (M : ℚ) * lv / (T : ℚ) := by linarith
    rw [le_div_iff₀ htq] at h1'
    nlinarith
  have h3 : (T : ℚ) * lv' - (M : ℚ) * lv' ≤ (T : ℚ) / 2 := by
    nlinarith [mul_nonneg (sub_nonneg.mpr hMq) (sub_nonneg.mpr hleq)]
  have hq' : (0 : ℚ) ≤ (M : ℚ) * ((lv' : ℚ) / (T : ℚ)) := by positivity
  have hfl : ((lv' : ℕ) : ℤ) ≤ roundAway ((M : ℚ) * ((lv' : ℚ) / (T : ℚ))) := by
    rw [roundAway, if_pos hq']
    apply Int.le_floor.mpr
    push_cast
    have hdive : ((lv' : ℕ) : ℚ) - 1/2 ≤ (M : ℚ) * lv' / (T : ℚ) := by
      rw [le_div_iff₀ htq]
      nlinarith
    rw [mul_div_assoc] at hdive
    linarith
  rw [rawAlloc]
  omega

/-- Summed lower bound of the raw allocations over any owner list. -/
theorem rawSum_lower (M T : Nat) : ∀ os : List Owner,
    (M : ℚ) * (((os.map Owner.levels).sum : ℕ) : ℚ) / (T : ℚ) - (os.length : ℚ)/2 ≤
      (((os.map (fun o => rawAlloc M T o.levels)).sum : ℕ) : ℚ) := by
  intro os
  induction os with
  | nil => simp
  | cons o os ih =>
    simp only [List.map_cons, List.sum_cons, List.length_cons, Nat.cast_add, Nat.cast_one]
    have hlow := rawAlloc_lower_q M T o.levels
    have hsplit : (M : ℚ) * ((o.levels : ℚ) + ((os.map Owner.levels).sum : ℚ)) / (T : ℚ) =
        (M : ℚ) * (o.levels : ℚ) / (T : ℚ) +
          (M : ℚ) * ((os.map Owner.levels).sum : ℚ) / (T : ℚ) := by
      ring
    rw [hsplit]
    linarith

theorem countP_range_beq (d j : Nat) :
    (List.range d).countP (fun t => t == j) = if j < d then 1 else 0 := by
  induction d with
  | zero => simp
  | succ d ih =>
    rw [List.range_succ, List.countP_append, ih]
    by_cases h1 : j < d
    · have h2 : (d == j) = false := by
        simp
        omega
      simp [h1, h2, Nat.lt_succ_of_lt h1, List.countP_cons]
    · by_cases h3 : j = d
      · have h2 : (d == j) = true := by simp [h3]
        simp [h1, h2, h3, List.countP_cons]
      · have h2 : (d == j) = false := by
          simp
          omega
        have h4 : ¬ j < d + 1 := by omega
        simp [h1, h2, h4, List.countP_cons]

/-- The number of increments owner `j` receives when `d ≤ n` increments cycle
forward from the front. -/
theorem incCount_eq (n d j : Nat) (hd : d ≤ n) :
    (List.range d).countP (fun t => (0 + t) % n == j) = if j < d then 1 else 0 := by
  rw [← countP_range_beq d j]
  apply List.countP_congr
  intro t ht
  rw [List.mem_range] at ht
  have hm : (0 + t) % n = t := by
    rw [Nat.zero_add, Nat.mod_eq_of_lt (lt_of_lt_of_le ht hd)]
  rw [hm]

/-- In a descending-sorted owner list, every owner from position `j` on has
levels at most the levels at position `j`. -/
theorem sorted_drop_le (s : List Owner) (hs : s.Sorted (fun a b => b.levels ≤ a.levels))
    (j : Nat) (hj : j < s.length) :
    ∀ x ∈ s.drop j, x.levels ≤ (s.getD j ⟨none, "", 0, ""⟩).levels := by
  intro x hx
  have hd : s[j] :: s.drop (j + 1) = s.drop j := List.getElem_cons_drop s j hj
  rw [← hd] at hx
  rw [List.getD_eq_getElem _ _ hj]
  rcases List.mem_cons.mp hx with h | h
  · rw [h]
  · have hpw : List.Pairwise (fun a b => b.levels ≤ a.levels) (s.drop j) :=
      List.Pairwise.sublist (List.drop_sublist j s) hs
    rw [← hd] at hpw
    exact (List.pairwise_cons.mp hpw).1 x h

theorem map_intCast_sum (g : Owner → Nat) (s : List Owner) :
    (s.map (fun o => (g o : ℤ))).sum = (((s.map g).sum : ℕ) : ℤ) := by
  rw [Nat.cast_list_sum, List.map_map]
  rfl

/-- C8 (amended): per-owner deltas are non-negative whenever the raw
allocations do not overshoot the modded total (the increment path), and on
*both* paths every delta stays at most its owner's original levels, so the
reduced-original levels never go negative (over the integers).  On the
increment path this holds because the deficit is at most half the owner
count, each owner receives at most one increment, and an incremented owner's
raw allocation is strictly below its levels (were it saturated, every
smaller owner's allocation would be saturated too and the total could not
fall short by more than the incremented position's index allows).
Unrestricted delta non-negativity still fails: on the decrement path a
cycling decrement can hit a zero allocation and drive a delta to -1, i.e.
the source's `u16` subtraction underflows (see the counterexample). -/
theorem delta_bounds (owners : List Owner) (R : Nat) (hR : 1 ≤ R)
    (hT : 0 < totalLevels owners) (j : Nat) (hj : j < owners.length) :
    ((((sortOwners owners).map (fun o => (rawAlloc (moddedLevelsTotal (totalLevels owners) R)
            (totalLevels owners) o.levels : ℤ))).sum ≤
          (moddedLevelsTotal (totalLevels owners) R : ℤ) →
        0 ≤ (planDeltas owners R).getD j 0) ∧
      (planDeltas owners R).getD j 0 ≤
        (((sortOwners owners).getD j ⟨none, "", 0, ""⟩).levels : ℤ)) := by
  have hMT' := moddedLevelsTotal_le (totalLevels owners) R hR
  have hsort' := sortOwners_sorted owners
  have hlen' := sortOwners_length owners
  have hsum' : ((sortOwners owners).map Owner.levels).sum = totalLevels owners :=
    ((sortOwners_perm owners).map Owner.levels).sum_eq
  simp only [planDeltas]
  generalize hM0 : moddedLevelsTotal (totalLevels owners) R = M at *
  generalize hT0 : totalLevels owners = T at *
  generalize hs0 : sortOwners owners = s at *
  -- from here on: M ≤ T, 0 < T, s sorted descending with level sum T, j < s.length
  have hjs : j < s.length := by omega
  have hjz : j < (s.map (fun o => (rawAlloc M T o.levels : ℤ))).length := by
    rw [List.length_map]
    exact hjs
  have hzpos : 0 < (s.map (fun o => (rawAlloc M T o.levels : ℤ))).length := by omega
  have hZN : (s.map (fun o => (rawAlloc M T o.levels : ℤ))).sum =
      (((s.map (fun o => rawAlloc M T o.levels)).sum : ℕ) : ℤ) :=
    map_intCast_sum _ s
  have hrawget : (s.map (fun o => (rawAlloc M T o.levels : ℤ))).getD j 0 =
      (rawAlloc M T ((s.getD j ⟨none, "", 0, ""⟩).levels) : ℤ) := by
    rw [List.getD_eq_getElem _ _ hjz, List.getElem_map, List.getD_eq_getElem _ _ hjs]
  constructor
  · -- increment path: deltas stay non-negative
    intro hsum
    by_cases hM : ((M : ℤ)) ≤ (s.map (fun o => (rawAlloc M T o.levels : ℤ))).sum
    · have h0 : (((s.map (fun o => (rawAlloc M T o.levels : ℤ))).sum - (M : ℤ))).toNat = 0 := by
        omega
      simp only [fixup]
      rw [if_pos hM, h0]
      rw [show ∀ l : List ℤ, (decFix l 0 0).1 = l from fun l => rfl]
      rw [hrawget]
      exact Int.natCast_nonneg _
    · simp only [fixup]
      rw [if_neg hM, incFix_getD _ _ _ _ hzpos hjz]
      have h1 : (0 : ℤ) ≤ (s.map (fun o => (rawAlloc M T o.levels : ℤ))).getD j 0 := by
        rw [hrawget]
        exact Int.natCast_nonneg _
      exact add_nonneg h1 (Int.natCast_nonneg _)
  · -- delta never exceeds the owner's levels, on either path
    by_cases hM : ((M : ℤ)) ≤ (s.map (fun o => (rawAlloc M T o.levels : ℤ))).sum
    · -- decrement path (or exact): delta ≤ raw ≤ levels
      simp only [fixup]
      rw [if_pos hM, decFix_getD _ _ _ _ hzpos hjz]
      have hle : rawAlloc M T ((s.getD j ⟨none, "", 0, ""⟩).levels) ≤
          (s.getD j ⟨none, "", 0, ""⟩).levels :=
        rawAlloc_le _ _ _ hMT' hT
      have h2 : (0 : ℤ) ≤ ((((List.range ((s.map (fun o => (rawAlloc M T o.levels : ℤ))).sum -
          (M : ℤ)).toNat).countP (fun t => (s.map (fun o => (rawAlloc M T o.levels : ℤ))).length -
          1 - ((0 + t) % (s.map (fun o => (rawAlloc M T o.levels : ℤ))).length) == j)) : ℕ) : ℤ) :=
        Int.natCast_nonneg _
      rw [hrawget]
      have h3 : ((rawAlloc M T ((s.getD j ⟨none, "", 0, ""⟩).levels) : ℕ) : ℤ) ≤
          (((s.getD j ⟨none, "", 0, ""⟩).levels : ℕ) : ℤ) := by
        exact_mod_cast hle
      omega
    · -- increment path: at most one increment per owner, and an incremented
      -- owner's raw allocation is strictly below its levels
      simp only [fixup]
      rw [if_neg hM, incFix_getD _ _ _ _ hzpos hjz]
      have hSN : (s.map (fun o => rawAlloc M T o.levels)).sum < M := by omega
      have hd : (((M : ℤ)) - (s.map (fun o => (rawAlloc M T o.levels : ℤ))).sum).toNat =
          M - (s.map (fun o => rawAlloc M T o.levels)).sum := by
        omega
      rw [hd, List.length_map]
      -- Step A: the deficit is at most half the owner count
      have htq : (0 : ℚ) < (T : ℚ) := by exact_mod_cast hT
      have hlowfull := rawSum_lower M T s
      rw [hsum'] at hlowfull
      have hMfull : (M : ℚ) * ((T : ℕ) : ℚ) / (T : ℚ) = (M : ℚ) := by
        rw [mul_div_assoc, div_self htq.ne', mul_one]
      rw [hMfull] at hlowfull
      have hA : 2 * (M - (s.map (fun o => rawAlloc M T o.levels)).sum) ≤ s.length := by
        have hq1 : ((M - (s.map (fun o => rawAlloc M T o.levels)).sum : ℕ) : ℚ) ≤
            (s.length : ℚ) / 2 := by
          rw [Nat.cast_sub hSN.le]
          linarith
        have hq2 : ((2 * (M - (s.map (fun o => rawAlloc M T o.levels)).sum) : ℕ) : ℚ) ≤
            (s.length : ℚ) := by
          push_cast
          push_cast at hq1
          linarith
        exact_mod_cast hq2
      have hdn : M - (s.map (fun o => rawAlloc M T o.levels)).sum ≤ s.length := by omega
      rw [incCount_eq _ _ _ hdn]
      by_cases hjd : j < M - (s.map (fun o => rawAlloc M T o.levels)).sum
      · rw [if_pos hjd]
        -- an incremented owner's raw allocation is strictly below its levels
        have hstrict : rawAlloc M T ((s.getD j ⟨none, "", 0, ""⟩).levels) <
            (s.getD j ⟨none, "", 0, ""⟩).levels := by
          rcases Nat.lt_or_ge (rawAlloc M T ((s.getD j ⟨none, "", 0, ""⟩).levels))
              ((s.getD j ⟨none, "", 0, ""⟩).levels) with hlt | hge
          · exact hlt
          exfalso
          have heq : rawAlloc M T ((s.getD j ⟨none, "", 0, ""⟩).levels) =
              (s.getD j ⟨none, "", 0, ""⟩).levels :=
            Nat.le_antisymm (rawAlloc_le _ _ _ hMT' hT) hge
          have hdropsat : ∀ x ∈ s.drop j, rawAlloc M T x.levels = x.levels := fun x hx =>
            rawAlloc_eq_of_le M T _ _ hMT' hT heq (sorted_drop_le s hsort' j hjs x hx)
          have hdropN : ((s.drop j).map (fun o => rawAlloc M T o.levels)).sum =
              ((s.drop j).map Owner.levels).sum := by
            rw [List.map_congr_left hdropsat]
          have hsplitN : (s.map (fun o => rawAlloc M T o.levels)).sum =
              ((s.take j).map (fun o => rawAlloc M T o.levels)).sum +
              ((s.drop j).map Owner.levels).sum := by
            rw [← hdropN, List.map_take, List.map_drop, ← List.sum_append,
              List.take_append_drop]
          have hAB : ((s.take j).map Owner.levels).sum +
              ((s.drop j).map Owner.levels).sum = T := by
            rw [List.map_take, List.map_drop, ← List.sum_append, List.take_append_drop, hsum']
          have hlen_take : (s.take j).length = j := by
            rw [List.length_take]
            omega
          have hlow := rawSum_lower M T (s.take j)
          rw [hlen_take] at hlow
          -- assemble the rational contradiction
          have hq4 : (s.map (fun o => rawAlloc M T o.levels)).sum + j + 1 ≤ M := by omega
          have e1 := mul_le_mul_of_nonneg_right hlow htq.le
          rw [sub_mul] at e1
          have hcancel : (M : ℚ) * ((((s.take j).map Owner.levels).sum : ℕ) : ℚ) / (T : ℚ) *
              (T : ℚ) = (M : ℚ) * ((((s.take j).map Owner.levels).sum : ℕ) : ℚ) :=
            div_mul_cancel₀ _ htq.ne'
          rw [hcancel] at e1
          have hq4' : (((s.map (fun o => rawAlloc M T o.levels)).sum : ℕ) : ℚ) +
              (j : ℚ) + 1 ≤ (M : ℚ) := by exact_mod_cast hq4
          have e2 := mul_le_mul_of_nonneg_right hq4' htq.le
          have hABq : ((((s.take j).map Owner.levels).sum : ℕ) : ℚ) +
              ((((s.drop j).map Owner.levels).sum : ℕ) : ℚ) = (T : ℚ) := by
            exact_mod_cast hAB
          have hsplitq : (((s.map (fun o => rawAlloc M T o.levels)).sum : ℕ) : ℚ) =
              ((((s.take j).map (fun o => rawAlloc M T o.levels)).sum : ℕ) : ℚ) +
              ((((s.drop j).map Owner.levels).sum : ℕ) : ℚ) := by
            exact_mod_cast hsplitN
          have e3 : (M : ℚ) * (T : ℚ) =
              (M : ℚ) * ((((s.take j).map Owner.levels).sum : ℕ) : ℚ) +
              (M : ℚ) * ((((s.drop j).map Owner.levels).sum : ℕ) : ℚ) := by
            rw [← hABq]
            ring
          have e4 : (M : ℚ) * ((((s.drop j).map Owner.levels).sum : ℕ) : ℚ) ≤
              (T : ℚ) * ((((s.drop j).map Owner.levels).sum : ℕ) : ℚ) := by
            apply mul_le_mul_of_nonneg_right _ (by positivity)
            exact_mod_cast hMT'
          nlinarith [e1, e2, e3, e4, htq, hsplitq]
        rw [hrawget]
        have : ((rawAlloc M T ((s.getD j ⟨none, "", 0, ""⟩).levels) : ℕ) : ℤ) + 1 ≤
            (((s.getD j ⟨none, "", 0, ""⟩).levels : ℕ) : ℤ) := by
          exact_mod_cast hstrict
        omega
      · rw [if_neg hjd]
        rw [hrawget]
        have hle : rawAlloc M T ((s.getD j ⟨none, "", 0, ""⟩).levels) ≤
            (s.getD j ⟨none, "", 0, ""⟩).levels :=
          rawAlloc_le _ _ _ hMT' hT
        have : ((rawAlloc M T ((s.getD j ⟨none, "", 0, ""⟩).levels) : ℕ) : ℤ) ≤
            (((s.getD j ⟨none, "", 0, ""⟩).levels : ℕ) : ℤ) := by
          exact_mod_cast hle
        omega

/-- Witness for the amended C8 at owners [7, 3], R = 4, j = 0. -/
theorem delta_bounds_witness :
    1 ≤ 4 ∧ 0 < totalLevels [⟨none, "a", 7, ""⟩, ⟨none, "b", 3, ""⟩] ∧
    0 < ([⟨none, "a", 7, ""⟩, ⟨none, "b", 3, ""⟩] : List Owner).length ∧
    ((((sortOwners [⟨none, "a", 7, ""⟩, ⟨none, "b", 3, ""⟩]).map
          (fun o => (rawAlloc
            (moddedLevelsTotal (totalLevels [⟨none, "a", 7, ""⟩, ⟨none, "b", 3, ""⟩]) 4)
            (totalLevels [⟨none, "a", 7, ""⟩, ⟨none, "b", 3, ""⟩]) o.levels : ℤ))).sum ≤
        (moddedLevelsTotal (totalLevels [⟨none, "a", 7, ""⟩, ⟨none, "b", 3, ""⟩]) 4 : ℤ) →
          0 ≤ (planDeltas [⟨none, "a", 7, ""⟩, ⟨none, "b", 3, ""⟩] 4).getD 0 0) ∧
      (planDeltas [⟨none, "a", 7, ""⟩, ⟨none, "b", 3, ""⟩] 4).getD 0 0 ≤
        (((sortOwners [⟨none, "a", 7, ""⟩, ⟨none, "b", 3, ""⟩]).getD 0
          ⟨none, "", 0, ""⟩).levels : ℤ)) :=
  ⟨by decide, by decide, by decide,
    delta_bounds [⟨none, "a", 7, ""⟩, ⟨none, "b", 3, ""⟩] 4 (by decide) (by decide) 0 (by decide)⟩

/-- C8 counterexample: a textile mill (ratio 4) with owner levels [3,3,3,1]
(total 10, modded total 2).  The raw allocations for the descending-sorted
owners are [1,1,1,0], overshooting the target by one; the single decrement
hits the last owner, whose delta becomes -1 — that is, the source's `u16`
subtraction `modded_per_owner[3] -= 1` underflows, refuting
`per_owner_delta[i] >= 0`. -/
theorem nonnegativity_counterexample :
    planDeltas [⟨none, "w", 3, ""⟩, ⟨none, "x", 3, ""⟩, ⟨none, "y", 3, ""⟩,
        ⟨none, "z", 1, ""⟩] 4 = [1, 1, 1, -1] ∧
    (planDeltas [⟨none, "w", 3, ""⟩, ⟨none, "x", 3, ""⟩, ⟨none, "y", 3, ""⟩,
        ⟨none, "z", 1, ""⟩] 4).getD 3 0 < 0 := by
  have hT : totalLevels [⟨none, "w", 3, ""⟩, ⟨none, "x", 3, ""⟩, ⟨none, "y", 3, ""⟩,
      ⟨none, "z", 1, ""⟩] = 10 := by decide
  have hM : moddedLevelsTotal 10 4 = 2 := by
    rw [moddedLevelsTotal, roundAway]
    norm_num
    decide
  have hS : sortOwners [⟨none, "w", 3, ""⟩, ⟨none, "x", 3, ""⟩, ⟨none, "y", 3, ""⟩,
      ⟨none, "z", 1, ""⟩] =
      [⟨none, "y", 3, ""⟩, ⟨none, "x", 3, ""⟩, ⟨none, "w", 3, ""⟩, ⟨none, "z", 1, ""⟩] := by
    decide
  have h3 : rawAlloc 2 10 3 = 1 := by
    rw [rawAlloc, roundAway]
    norm_num
  have h1 : rawAlloc 2 10 1 = 0 := by
    rw [rawAlloc, roundAway]
    norm_num
  have hplan : planDeltas [⟨none, "w", 3, ""⟩, ⟨none, "x", 3, ""⟩, ⟨none, "y", 3, ""⟩,
      ⟨none, "z", 1, ""⟩] 4 = [1, 1, 1, -1] := by
    simp only [planDeltas, hT, hM, hS]
    simp only [List.map_cons, List.map_nil, h3, h1]
    decide
  refine ⟨hplan, ?_⟩
  rw [hplan]
  decide

/-- C9 (amended): on a states-mode line whose trimmed content starts with the
`arable_resources` marker and which contains exactly one `}`, the extra quoted
token is appended before the line's closing brace — because the source's
`str::replace` substitutes *every* `}` occurrence, which coincides with
substituting the last one only when the line has a single `}` (the general
behaviour replaces them all; see the counterexample).  Both the farm-type and
the livestock-ranch branches are covered. -/
theorem states_line_append (l : List Char)
    (hb : l.dropWhile (fun c => c == bomChar) = l)
    (hm : leadsWith arableMarker (trimChars l) = true)
    (hc : l.count rbraceChar = 1) :
    (farmTypes.any (fun f => containsSub f.data l) = true →
      containsSub ranchMarker (repAllBrace orchardRep l) = false →
      transformLineChars l = repLastBrace orchardRep l) ∧
    (farmTypes.any (fun f => containsSub f.data l) = false →
      containsSub ranchMarker l = true →
      transformLineChars l = repLastBrace woolRep l) := by
  constructor
  · intro hf hr
    have h1 : transformLineChars l = repAllBrace orchardRep l := by
      simp only [transformLineChars, hb, hm, hf, if_true]
      rw [hr]
      simp
    exact h1.trans (repAll_eq_repLast_of_count_one orchardRep l hc)
  · intro hf hr
    have h1 : transformLineChars l = repAllBrace woolRep l := by
      simp only [transformLineChars, hb, hm, hf, Bool.false_eq_true, if_false, if_true]
      rw [hr]
      simp
    exact h1.trans (repAll_eq_repLast_of_count_one woolRep l hc)

/-- Witness for the amended C9 on a single-brace farm-type line. -/
theorem states_line_append_witness :
    (("  arable_resources = \x7b \"building_rye_farm\" \x7d").data.dropWhile
        (fun c => c == bomChar) = ("  arable_resources = \x7b \"building_rye_farm\" \x7d").data) ∧
    leadsWith arableMarker
      (trimChars ("  arable_resources = \x7b \"building_rye_farm\" \x7d").data) = true ∧
    ("  arable_resources = \x7b \"building_rye_farm\" \x7d").data.count rbraceChar = 1 ∧
    ((farmTypes.any (fun f => containsSub f.data
          ("  arable_resources = \x7b \"building_rye_farm\" \x7d").data) = true →
        containsSub ranchMarker (repAllBrace orchardRep
          ("  arable_resources = \x7b \"building_rye_farm\" \x7d").data) = false →
        transformLineChars ("  arable_resources = \x7b \"building_rye_farm\" \x7d").data =
          repLastBrace orchardRep ("  arable_resources = \x7b \"building_rye_farm\" \x7d").data) ∧
      (farmTypes.any (fun f => containsSub f.data
          ("  arable_resources = \x7b \"building_rye_farm\" \x7d").data) = false →
        containsSub ranchMarker ("  arable_resources = \x7b \"building_rye_farm\" \x7d").data = true →
        transformLineChars ("  arable_resources = \x7b \"building_rye_farm\" \x7d").data =
          repLastBrace woolRep ("  arable_resources = \x7b \"building_rye_farm\" \x7d").data)) :=
  ⟨by decide, by decide, by decide,
    states_line_append (("  arable_resources = \x7b \"building_rye_farm\" \x7d").data)
      (by decide) (by decide) (by decide)⟩

/-- C9 counterexample: a marker line holding two `}` characters.  The source
substitutes *both* occurrences (`str::replace` replaces every match), so the
output differs from the claimed substitution of only the last occurrence,
which would leave the earlier `}` untouched. -/
theorem states_replace_all_counterexample :
    transformStateLine ("  arable_resources = \x7b \"building_rye_farm\" \x7d \x7d") =
      ("  arable_resources = \x7b \"building_rye_farm\" \"bg_fruit_orchard\" \x7d \"bg_fruit_orchard\" \x7d") ∧
    transformStateLine ("  arable_resources = \x7b \"building_rye_farm\" \x7d \x7d") ≠
      String.mk (repLastBrace orchardRep
        ("  arable_resources = \x7b \"building_rye_farm\" \x7d \x7d").data) :=
  ⟨by decide, by decide⟩
